import Mathlib

/-!
Verification of the APK SDK-analysis core (binary-XML decoder, fuzzy name
matcher, native-library scanner, result aggregator) against its
natural-language specification.

The embedding below is a shallow translation of the TypeScript sources:
  * `src/utils/fuzzyMatcher.ts`  — name normalisation and the 7-tier matcher,
    plus the AXML (binary AndroidManifest.xml) decoder `analyse` that the same
    file carries;
  * `src/services/sdkScanner.ts` — `scanNativeLibraries`;
  * `src/services/apkAnalyzer.ts` — `matchLibraries` (the result aggregator).

JavaScript-specific behaviour is modelled explicitly and named `js...`:
string methods work on the underlying character lists, `Map`/object tables
are insertion-ordered association lists, and the few regular expressions the
source uses are compiled by hand into deterministic matchers (each is
documented at its definition).  Recursions that are not structural use an
explicit fuel argument whose chosen value is provably sufficient, so every
definition reduces in the kernel.
-/

-- Decidable equality for `Except` results (used to settle concrete decoder
-- runs by `decide`).
deriving instance DecidableEq for Except

namespace ApkAnalysis

/-! ## JavaScript string primitives -/

/-- Substring test on character lists: models JavaScript
`hay.includes(needle)` (true when `needle` occurs contiguously in `hay`;
the empty needle always occurs). -/
def containsSub (needle : List Char) : List Char → Bool
  | [] => needle.isEmpty
  | c :: rest => needle.isPrefixOf (c :: rest) || containsSub needle rest

/-- JavaScript `hay.includes(needle)` on strings. -/
def jsIncludes (hay needle : String) : Bool :=
  containsSub needle.data hay.data

/-- JavaScript `s.startsWith(pre)`. -/
def jsStartsWith (s pre : String) : Bool :=
  pre.data.isPrefixOf s.data

/-- JavaScript `s.endsWith(suf)`. -/
def jsEndsWith (s suf : String) : Bool :=
  suf.data.isSuffixOf s.data

/-- JavaScript `s.toLowerCase()` (ASCII case folding; every string the
analyser handles is ASCII apart from fixed label constants). -/
def jsToLower (s : String) : String :=
  String.mk (s.data.map Char.toLower)

/-- Drop the last `n` characters of a string (used for suffix stripping). -/
def strDropRight (s : String) (n : Nat) : String :=
  String.mk (s.data.take (s.data.length - n))

/-- JavaScript `s.substring(n)` / `s.slice(n)`: drop the first `n` characters. -/
def strDrop (s : String) (n : Nat) : String :=
  String.mk (s.data.drop n)

/-- One segment split step of JavaScript `s.split(sep)` on character lists:
`splitChars sep l` is the list of separator-free pieces, so
`"a/b".split('/') = ["a","b"]`, `"".split('/') = [""]`,
`"/".split('/') = ["",""]`. -/
def splitChars (sep : Char) : List Char → List (List Char)
  | [] => [[]]
  | c :: rest =>
    match splitChars sep rest with
    | [] => [[]]
    | h :: t => if c = sep then [] :: h :: t else (c :: h) :: t

/-- JavaScript `s.split(sep)` (single-character separator). -/
def jsSplit (sep : Char) (s : String) : List String :=
  (splitChars sep s.data).map String.mk

/-! ## Insertion-ordered association lists

JavaScript `Map`s and plain objects with non-numeric string keys iterate in
insertion order; `set` on an existing key replaces the value in place. -/

/-- Lookup in an insertion-ordered association list (JS `map.get(k)` /
`obj[k]`). -/
def alGet {α : Type} (m : List (String × α)) (k : String) : Option α :=
  match m with
  | [] => none
  | p :: rest => if p.1 = k then some p.2 else alGet rest k

/-- JS `map.set(k, v)`: replace in place when the key exists, else append. -/
def alSet {α : Type} (m : List (String × α)) (k : String) (v : α) :
    List (String × α) :=
  match m with
  | [] => [(k, v)]
  | p :: rest => if p.1 = k then (k, v) :: rest else p :: alSet rest k v

/-! ## Name normalisation (`src/utils/fuzzyMatcher.ts`) -/

/-- `removeExtension`: `name.replace(/\.so$/i, '')` — strip one trailing
".so", case-insensitively. -/
def removeExtension (name : String) : String :=
  if jsEndsWith (jsToLower name) ".so" then strDropRight name 3 else name

/-- `removeLibPrefix`: drop a leading "lib" (detected case-insensitively,
three characters removed from the original). -/
def removeLibPrefix (name : String) : String :=
  if jsStartsWith (jsToLower name) "lib" then strDrop name 3 else name

/-- Length of the leading run of ASCII decimal digits (regex `\d+`,
possibly empty here; callers require at least one). -/
def digitRun : List Char → Nat
  | [] => 0
  | c :: rest => if c.isDigit then digitRun rest + 1 else 0

/-- Characters consumed by the greedy `(\.\d+)+`-style repetition: as many
"dot then one-or-more digits" groups as possible (0 when none).  `fuel`
bounds the recursion; `l.length` always suffices. -/
def dotGroups (fuel : Nat) (l : List Char) : Nat :=
  match fuel, l with
  | 0, _ => 0
  | f + 1, '.' :: rest =>
    let d := digitRun rest
    if d = 0 then 0 else d + 1 + dotGroups f (rest.drop d)
  | _ + 1, _ => 0

/-- Match of `\d+(\.\d+)+` at the head of `l`: number of characters
consumed, or `none`.  The digit run is maximal, so no backtracking into it
can help (the character after it is never a digit). -/
def matchNumTail (l : List Char) : Option Nat :=
  let d := digitRun l
  if d = 0 then none
  else
    let g := dotGroups l.length (l.drop d)
    if g = 0 then none else some (d + g)

/-- Match of `v?\d+(\.\d+)+` at the head of `l` (the regex has no `i` flag,
so only a lowercase 'v').  Mirrors the regex's preference for consuming the
optional 'v', with the fallback alternative kept for faithfulness. -/
def matchVerCore (l : List Char) : Option Nat :=
  match l with
  | 'v' :: rest => ((matchNumTail rest).map (· + 1)) <|> matchNumTail l
  | _ => matchNumTail l

/-- Match of the full version pattern `[-_.]?v?\d+(\.\d+)+` at the head of
`l`: characters consumed, or `none`.  The optional separator is consumed
greedily; the separator-less alternative is kept for faithfulness (it can
never succeed when the greedy branch failed, since none of `-`, `_`, `.`
starts `v?\d+`). -/
def matchVer (l : List Char) : Option Nat :=
  match l with
  | [] => none
  | c :: rest =>
    if c = '-' ∨ c = '_' ∨ c = '.' then
      ((matchVerCore rest).map (· + 1)) <|> matchVerCore (c :: rest)
    else matchVerCore (c :: rest)

/-- Match of `-release-\d+` at the head of `l`: characters consumed, or
`none`. -/
def matchRelease (l : List Char) : Option Nat :=
  match l with
  | '-' :: 'r' :: 'e' :: 'l' :: 'e' :: 'a' :: 's' :: 'e' :: '-' :: rest =>
    let d := digitRun rest
    if d = 0 then none else some (9 + d)
  | _ => none

/-- Global regex replacement with the empty string: scan left to right,
deleting every non-overlapping match found by `m` (which returns the number
of characters a match at the head consumes — always at least 1 for the
patterns used here).  `fuel` bounds the recursion; the initial list length
suffices since every step consumes at least one character. -/
def replaceAllWith (m : List Char → Option Nat) : Nat → List Char → List Char
  | 0, l => l
  | _ + 1, [] => []
  | fuel + 1, c :: rest =>
    match m (c :: rest) with
    | some (k + 1) => replaceAllWith m fuel (rest.drop k)
    | some 0 => c :: replaceAllWith m fuel rest
    | none => c :: replaceAllWith m fuel rest

/-- Trailing-digit-run strip for the anchored pattern `/_\d+$/g`: when the
string ends in `'_'` followed by one or more digits, remove them (a single
match is possible because the match must reach the end of the string). -/
def stripUnderscoreNumEnd (l : List Char) : List Char :=
  let r := l.reverse
  let d := digitRun r
  if d = 0 then l
  else
    match r.drop d with
    | '_' :: _ => (r.drop (d + 1)).reverse
    | _ => l

/-- `removeVersionSuffix`: the three chained global replacements of
`[-_.]?v?\d+(\.\d+)+`, of `-release-` followed by digits, and of `_\d+$`,
each global and each with the empty string. -/
def removeVersionSuffix (name : String) : String :=
  let l1 := replaceAllWith matchVer name.data.length name.data
  let l2 := replaceAllWith matchRelease l1.length l1
  String.mk (stripUnderscoreNumEnd l2)

/-- The build/architecture suffix list of `removeCommonSuffix`, in source
order. -/
def commonSuffixes : List String :=
  ["-debug", "-release", "-prod", "-dev",
   "_debug", "_release", "_prod", "_dev",
   "_arm64", "_armeabi", "_x86", "_x86_64",
   "-arm64-v8a", "-armeabi-v7a", "-x86", "-x86_64",
   "_alijtca_plus"]

/-- `removeCommonSuffix`: for each suffix in order, one case-insensitive
anchored replacement (`new RegExp(suffix + '$', 'i')`) with the empty
string. -/
def removeCommonSuffix (name : String) : String :=
  commonSuffixes.foldl
    (fun result suffix =>
      if jsEndsWith (jsToLower result) suffix then
        strDropRight result suffix.length
      else result)
    name

/-- The reserved package-name heads of `removePackagePrefix`, in source
order. -/
def packagePrefixes : List String :=
  ["com_", "cn_", "org_", "io_", "net_", "android_"]

/-- `removePackagePrefix`: when the name starts (case-insensitively) with a
reserved head and splitting on '_' yields at least three parts, replace the
whole name with the last part. -/
def removePackagePrefix (name : String) : String :=
  match packagePrefixes.find? (fun p => jsStartsWith (jsToLower name) p) with
  | none => name
  | some _ =>
    let parts := jsSplit '_' name
    if parts.length ≥ 3 then parts.getLastD name else name

/-- JS `Set.add`: append when absent (a `Set` iterates in insertion
order). -/
def setAdd (l : List String) (s : String) : List String :=
  if s ∈ l then l else l ++ [s]

/-- `generateNormalizedNames`: the ordered candidate list of priorities 2-5
— basic normalisation, version stripping, build-suffix stripping,
package-head stripping and the fully combined form, each also re-wrapped in
"lib"/".so"; duplicates are removed by the `Set`, empty strings filtered at
the end. -/
def generateNormalizedNames (libraryName : String) : List String :=
  let current := removeExtension libraryName
  let withoutLib := removeLibPrefix current
  let lowercase := jsToLower current
  let variants := setAdd (setAdd (setAdd [] withoutLib) lowercase)
    (removeLibPrefix lowercase)
  let withoutVersion := removeVersionSuffix current
  let variants := setAdd (setAdd (setAdd variants withoutVersion)
    (withoutVersion ++ ".so")) ("lib" ++ withoutVersion ++ ".so")
  let withoutSuffix := removeCommonSuffix current
  let variants := setAdd (setAdd (setAdd variants withoutSuffix)
    (withoutSuffix ++ ".so")) ("lib" ++ withoutSuffix ++ ".so")
  let withoutPackage := removePackagePrefix current
  let variants :=
    if withoutPackage ≠ current then
      setAdd (setAdd (setAdd variants withoutPackage)
        (withoutPackage ++ ".so")) ("lib" ++ withoutPackage ++ ".so")
    else variants
  let fullyNormalized := removePackagePrefix (removeCommonSuffix
    (removeVersionSuffix (removeLibPrefix current)))
  let variants := setAdd (setAdd (setAdd variants fullyNormalized)
    (fullyNormalized ++ ".so")) ("lib" ++ fullyNormalized ++ ".so")
  variants.filter (fun n => n ≠ "")

/-! ## The matcher (`fuzzyMatchLibrary` and friends) -/

/-- The catalog record type: `Omit<Library, 'count' | 'locations' |
'architectures' | 'hasMetadata' | 'expanded'>` from `src/types/index.ts`
(the `type` union and optional `categoryDescription` are modelled as plain
strings / dropped — no claim depends on them). -/
structure RuleEntry where
  id : String
  uuid : String
  name : String
  label : String
  category : String
  categoryLabel : String
  categoryIcon : String
  developer : String
  description : String
  sourceLink : String
  type : String
deriving DecidableEq

/-- A rules table (`Record<string, RuleEntry>`): insertion-ordered
association list, as JavaScript objects with non-numeric string keys are. -/
abbrev RMap := List (String × RuleEntry)

/-- `isHashName`: after stripping a leading "lib" and a trailing ".so"
(both case-insensitive), test `/^[0-9A-Fa-f]{8,16}$/`. -/
def isHashName (libraryName : String) : Bool :=
  let coreName :=
    (removeExtension (removeLibPrefix libraryName)).data
  coreName.all (fun c => c.isDigit ∨
      ('a' ≤ c ∧ c ≤ 'f') ∨ ('A' ≤ c ∧ c ≤ 'F'))
    && 8 ≤ coreName.length && coreName.length ≤ 16

/-- The scan inside `findSubstringMatch`: iterate the catalog keys in
insertion order; a hit when the lowercased, ".so"-stripped key occurs in
the lowercased input name, or the lowercased, ".so"-stripped input name
occurs in the lowercased key. -/
def findSubstringMatchGo (normalizedName : String) : RMap → Option RuleEntry
  | [] => none
  | (ruleKey, e) :: rest =>
    let normalizedRuleKey := jsToLower ruleKey
    if jsIncludes normalizedName (removeExtension normalizedRuleKey) then
      some e
    else if jsIncludes normalizedRuleKey (removeExtension normalizedName) then
      some e
    else findSubstringMatchGo normalizedName rest

/-- `findSubstringMatch` (priority 6). -/
def findSubstringMatch (libraryName : String) (rulesMap : RMap) :
    Option RuleEntry :=
  findSubstringMatchGo (jsToLower libraryName) rulesMap

/-- The priority 2-5 loop of `fuzzyMatchLibrary`: the first normalised
candidate present as a key wins. -/
def firstNormalizedHit (rulesMap : RMap) : List String → Option RuleEntry
  | [] => none
  | c :: rest =>
    match alGet rulesMap c with
    | some e => some e
    | none => firstNormalizedHit rulesMap rest

/-- `fuzzyMatchLibrary`: exact key lookup, then the normalised candidates
in order, then the substring scan; the hash-name test (priority 7) only
logs a warning in the source — matched or not, the result past priority 6
is `null` either way, so both final branches are `none` here. -/
def fuzzyMatchLibrary (libraryName : String) (rulesMap : RMap) :
    Option RuleEntry :=
  match alGet rulesMap libraryName with
  | some e => some e
  | none =>
    match firstNormalizedHit rulesMap (generateNormalizedNames libraryName) with
    | some e => some e
    | none =>
      match findSubstringMatch libraryName rulesMap with
      | some e => some e
      | none => none

/-- The memo cache of `fuzzyMatchLibraryWithCache`: a `Map` from the exact
literal name to the (possibly `null`) match result.  In the source it is a
module-level mutable `Map`; here it is threaded explicitly. -/
abbrev MatchCache := List (String × Option RuleEntry)

/-- `fuzzyMatchLibraryWithCache`: return the cached result when the literal
name is present (even a cached `null`), else match and cache. -/
def fuzzyMatchLibraryWithCache (libraryName : String) (rulesMap : RMap)
    (cache : MatchCache) : Option RuleEntry × MatchCache :=
  match alGet cache libraryName with
  | some r => (r, cache)
  | none =>
    let result := fuzzyMatchLibrary libraryName rulesMap
    (result, alSet cache libraryName result)

/-- `clearMatchCache`: the cache after `matchCache.clear()`. -/
def clearMatchCache : MatchCache := []

/-! ## The native-library scanner (`src/services/sdkScanner.ts`) -/

/-- `LibraryInfo` from `sdkScanner.ts`: per-filename accumulation record. -/
structure LibraryInfo where
  name : String
  count : Nat
  locations : List String
  architectures : List String
deriving DecidableEq

/-- The per-filename map built by `scanNativeLibraries` (a JS `Map`,
insertion-ordered). -/
abbrev NLMap := List (String × LibraryInfo)

/-- Lexicographic comparison of character lists by code point. -/
def strLeGo : List Char → List Char → Bool
  | [], _ => true
  | _ :: _, [] => false
  | x :: xs, y :: ys =>
    if x.toNat < y.toNat then true
    else if y.toNat < x.toNat then false
    else strLeGo xs ys

/-- Lexicographic-by-code-point order on strings, modelling the default
comparator of JavaScript `Array.prototype.sort` (which compares UTF-16
code-unit sequences; identical on the ASCII data handled here). -/
def strLe (a b : String) : Bool :=
  strLeGo a.data b.data

/-- Ordered insertion for the insertion sort modelling `Array.sort`. -/
def insertBy {α : Type} (le : α → α → Bool) (x : α) : List α → List α
  | [] => [x]
  | y :: ys => if le x y then x :: y :: ys else y :: insertBy le x ys

/-- Insertion sort modelling `Array.prototype.sort` with comparator `le`
(stability is irrelevant to the claims proved below). -/
def sortBy {α : Type} (le : α → α → Bool) (l : List α) : List α :=
  l.foldr (insertBy le) []

/-- The accumulation of one matching path in `scanNativeLibraries`: create
the empty record when the filename is new, then increment the count, push
the full path, and add the ABI directory name when not yet present. -/
def nlmapAccum (m : NLMap) (fileName architecture relativePath : String) :
    NLMap :=
  let m' :=
    if (alGet m fileName).isSome then m
    else alSet m fileName
      { name := fileName, count := 0, locations := [], architectures := [] }
  match alGet m' fileName with
  | none => m'
  | some libInfo =>
    alSet m' fileName
      { libInfo with
        count := libInfo.count + 1
        locations := libInfo.locations ++ [relativePath]
        architectures :=
          if architecture ∈ libInfo.architectures then libInfo.architectures
          else libInfo.architectures ++ [architecture] }

/-- The body of the `zip.forEach` callback in `scanNativeLibraries` for one
archive entry path: only paths starting with "lib/", ending in ".so" and
splitting into exactly three '/'-separated parts are accumulated.  (The
source also requires `!file.dir`; JSZip directory entries have paths ending
in '/', which never end in ".so", so file-entry paths are the whole input
here.) -/
def scanStep (m : NLMap) (relativePath : String) : NLMap :=
  if jsStartsWith relativePath "lib/" && jsEndsWith relativePath ".so" then
    let parts := jsSplit '/' relativePath
    if parts.length = 3 then
      nlmapAccum m (parts.getD 2 "") (parts.getD 1 "") relativePath
    else m
  else m

/-- `scanNativeLibraries`: fold the step over all archive entry paths, then
sort the key list and each record's architecture and location lists. -/
def scanNativeLibraries (paths : List String) : List String × NLMap :=
  let m := paths.foldl scanStep []
  let nativeLibs := sortBy strLe (m.map (·.1))
  let m := m.map (fun p =>
    (p.1, { p.2 with
            architectures := sortBy strLe p.2.architectures
            locations := sortBy strLe p.2.locations }))
  (nativeLibs, m)

/-! ## The result aggregator (`matchLibraries` in
`src/services/apkAnalyzer.ts`) -/

/-- The full `Library` record of `src/types/index.ts` (catalog fields plus
the per-run accumulation fields). -/
structure Library where
  id : String
  uuid : String
  name : String
  label : String
  category : String
  categoryLabel : String
  categoryIcon : String
  developer : String
  description : String
  sourceLink : String
  type : String
  count : Nat
  locations : List String
  architectures : List String
  hasMetadata : Bool
  expanded : Bool
deriving DecidableEq

/-- The merge key `matched.uuid || matched.id` (JS `||`: an empty `uuid`
string is falsy, so the `id` is used then). -/
def uuidOrId (e : RuleEntry) : String :=
  if e.uuid = "" then e.id else e.uuid

/-- The in-run library map of `matchLibraries` (a JS `Map` keyed by
`uuid`-or-`id` for matched entries and by the literal filename for
unmatched native libraries). -/
abbrev LibMap := List (String × Library)

/-- A fresh `Library` for a matched native library (`{...matched, count,
locations, architectures, hasMetadata: true, expanded: false}` with the
fields taken from the scanner's `LibraryInfo` when present, else 0/[]). -/
def newNativeLibrary (matched : RuleEntry) (libInfo : Option LibraryInfo) :
    Library :=
  { id := matched.id, uuid := matched.uuid, name := matched.name,
    label := matched.label, category := matched.category,
    categoryLabel := matched.categoryLabel,
    categoryIcon := matched.categoryIcon, developer := matched.developer,
    description := matched.description, sourceLink := matched.sourceLink,
    type := matched.type,
    count := (libInfo.map (·.count)).getD 0,
    locations := (libInfo.map (·.locations)).getD [],
    architectures := (libInfo.map (·.architectures)).getD [],
    hasMetadata := true, expanded := false }

/-- Merging a further native `LibraryInfo` into an existing record: sum the
counts, concatenate the locations, union the architectures (in order,
skipping those already present); when the scanner map holds no record for
the filename nothing is merged (`if (libInfo)`). -/
def mergeNative (existing : Library) (libInfo : Option LibraryInfo) :
    Library :=
  match libInfo with
  | none => existing
  | some i =>
    { existing with
      count := existing.count + i.count
      locations := existing.locations ++ i.locations
      architectures := i.architectures.foldl
        (fun acc arch => if arch ∈ acc then acc else acc ++ [arch])
        existing.architectures }

/-- The placeholder `Library` for a native library matching no catalog
entry, keyed by the literal filename (lines 188-205 of
`apkAnalyzer.ts`). -/
def unmatchedLibrary (libName : String) (libInfo : Option LibraryInfo) :
    Library :=
  { id := libName, uuid := "", name := libName, label := libName,
    category := "other", categoryLabel := "其他", categoryIcon := "📦",
    developer := "Unknown", description := "未识别的库", sourceLink := "",
    type := "native",
    count := (libInfo.map (·.count)).getD 0,
    locations := (libInfo.map (·.locations)).getD [],
    architectures := (libInfo.map (·.architectures)).getD [],
    hasMetadata := false, expanded := false }

/-- One iteration of the native-library loop of `matchLibraries`: matched
names merge under `uuid`-or-`id`; unmatched names get the placeholder
record under the literal filename, inserted only when that key is absent. -/
def processNativeOne (native : RMap) (nlMap : NLMap)
    (st : LibMap × MatchCache) (libName : String) : LibMap × MatchCache :=
  match fuzzyMatchLibraryWithCache libName native st.2 with
  | (some matched, cache2) =>
    match alGet st.1 (uuidOrId matched) with
    | some existing =>
      (alSet st.1 (uuidOrId matched)
        (mergeNative existing (alGet nlMap libName)), cache2)
    | none =>
      (alSet st.1 (uuidOrId matched)
        (newNativeLibrary matched (alGet nlMap libName)), cache2)
  | (none, cache2) =>
    match alGet st.1 libName with
    | some _ => (st.1, cache2)
    | none =>
      (alSet st.1 libName
        (unmatchedLibrary libName (alGet nlMap libName)), cache2)

/-- A fresh `Library` for a matched component (`{...matched, count: 1,
locations: [tag + name], hasMetadata: true, expanded: false}`; the source
leaves `architectures` undefined, modelled as the empty list). -/
def newComponentLibrary (matched : RuleEntry) (tag name : String) :
    Library :=
  { id := matched.id, uuid := matched.uuid, name := matched.name,
    label := matched.label, category := matched.category,
    categoryLabel := matched.categoryLabel,
    categoryIcon := matched.categoryIcon, developer := matched.developer,
    description := matched.description, sourceLink := matched.sourceLink,
    type := matched.type,
    count := 1, locations := [tag ++ name], architectures := [],
    hasMetadata := true, expanded := false }

/-- One iteration of a component loop of `matchLibraries` (`tag` is
"Activity: ", "Service: ", "Provider: " or "Receiver: "): only matched
names touch the map — an existing record gains count 1 and a tagged
location, a new one is created otherwise; unmatched names are dropped. -/
def processComponentOne (tag : String) (table : RMap)
    (st : LibMap × MatchCache) (name : String) : LibMap × MatchCache :=
  match fuzzyMatchLibraryWithCache name table st.2 with
  | (none, cache2) => (st.1, cache2)
  | (some matched, cache2) =>
    match alGet st.1 (uuidOrId matched) with
    | some existing =>
      (alSet st.1 (uuidOrId matched)
        { existing with
          count := existing.count + 1
          locations := existing.locations ++ [tag ++ name] }, cache2)
    | none =>
      (alSet st.1 (uuidOrId matched)
        (newComponentLibrary matched tag name), cache2)

/-- The scanner output consumed by `matchLibraries` (`ScanResult` of
`sdkScanner.ts`; `nativeLibs` is deduplicated and sorted, `nativeLibsMap`
the per-filename detail map). -/
structure ScanResult where
  nativeLibs : List String
  nativeLibsMap : NLMap
  activities : List String
  services : List String
  providers : List String
  receivers : List String

/-- The per-kind rule tables of the `RulesBundle` used by
`matchLibraries`. -/
structure RulesTables where
  native : RMap
  activities : RMap
  services : RMap
  providers : RMap
  receivers : RMap

/-- `matchLibraries`: the native loop, then the four component loops (all
sharing the memo cache, threaded here explicitly from `cache0`), then the
map's values sorted ascending by label (`localeCompare` modelled by
code-point order — identical on the labels appearing in the theorems
below). -/
def matchLibraries (scan : ScanResult) (rules : RulesTables)
    (cache0 : MatchCache) : List Library × MatchCache :=
  let st := scan.nativeLibs.foldl
    (processNativeOne rules.native scan.nativeLibsMap) ([], cache0)
  let st := scan.activities.foldl
    (processComponentOne "Activity: " rules.activities) st
  let st := scan.services.foldl
    (processComponentOne "Service: " rules.services) st
  let st := scan.providers.foldl
    (processComponentOne "Provider: " rules.providers) st
  let st := scan.receivers.foldl
    (processComponentOne "Receiver: " rules.receivers) st
  (sortBy (fun a b => strLe a.label b.label) (st.1.map (·.2)), st.2)

/-! ## The AXML decoder (`analyse` in the axmlParser part of
`src/utils/fuzzyMatcher.ts`)

The buffer is the byte list of the `ArrayBuffer`; every `DataView` read is
little-endian and, as in JavaScript, raises a `RangeError` — modelled by
`DecodeErr.eob` — whenever the requested bytes would lie past the end of
the buffer.  The listener callbacks are modelled by an emitted event list.
The main `while` loop is driven by explicit fuel: `DecodeErr.noFuel` marks
the cut-off of a run that the JavaScript loop would continue (possibly
forever, e.g. on a zero-sized chunk); every concrete run below is given
provably sufficient fuel. -/

def WORD_START_DOCUMENT : Nat := 0x00080003

def WORD_STRING_TABLE : Nat := 0x001C0001

def WORD_RES_TABLE : Nat := 0x00080180

def WORD_START_NS : Nat := 0x00100100

def WORD_END_NS : Nat := 0x00100101

def WORD_START_TAG : Nat := 0x00100102

def WORD_END_TAG : Nat := 0x00100103

def WORD_TEXT : Nat := 0x00100104

def WORD_EOS : Nat := 0xFFFFFFFF

def WORD_SIZE : Nat := 4

def TYPE_ID_REF : Nat := 0x01000008

def TYPE_ATTR_REF : Nat := 0x02000008

def TYPE_STRING : Nat := 0x03000008

def TYPE_DIMEN : Nat := 0x05000008

def TYPE_FRACTION : Nat := 0x06000008

def TYPE_INT : Nat := 0x10000008

def TYPE_FLOAT : Nat := 0x04000008

def TYPE_FLAGS : Nat := 0x11000008

def TYPE_BOOL : Nat := 0x12000008

def TYPE_COLOR : Nat := 0x1C000008

def TYPE_COLOR2 : Nat := 0x1D000008

/-- The 6-entry dimension unit table `DIMEN`. -/
def DIMEN : List String := ["px", "dp", "sp", "pt", "in", "mm"]

/-- Decode failure: `eob` models the JavaScript `RangeError` raised by any
`DataView`/typed-array access past the end of the buffer (the only runtime
failure the decoder can produce); `noFuel` marks fuel exhaustion of the
modelled main loop (standing for a run the JavaScript loop would
continue). -/
inductive DecodeErr
  | eob
  | noFuel
deriving DecidableEq

/-- Little-endian byte read (`DataView.getUint8`). -/
def getU8 (buf : List Nat) (off : Nat) : Except DecodeErr Nat :=
  if off + 1 ≤ buf.length then .ok (buf.getD off 0 % 256) else .error .eob

/-- Little-endian 16-bit read (`DataView.getUint16(off, true)`). -/
def getU16 (buf : List Nat) (off : Nat) : Except DecodeErr Nat :=
  if off + 2 ≤ buf.length then
    .ok (buf.getD off 0 % 256 + buf.getD (off + 1) 0 % 256 * 256)
  else .error .eob

/-- Little-endian 32-bit read (`DataView.getUint32(off, true)`). -/
def getU32 (buf : List Nat) (off : Nat) : Except DecodeErr Nat :=
  if off + 4 ≤ buf.length then
    .ok (buf.getD off 0 % 256 + buf.getD (off + 1) 0 % 256 * 256 +
         buf.getD (off + 2) 0 % 256 * 65536 +
         buf.getD (off + 3) 0 % 256 * 16777216)
  else .error .eob

/-- `getString` of `analyse`: `null` (here `none`) for any index outside
`[0, mStringsCount)`, the table entry otherwise.  Indices are naturals, so
the `index >= 0` half of the source guard is automatic; before the string
table was parsed `mStringsCount` is `undefined` in the source, making the
`<` comparison false — `cnt = 0` behaves identically. -/
def getStringM (cnt : Nat) (table : List String) (index : Nat) :
    Option String :=
  if index < cnt then some (table.getD index "") else none

/-- JavaScript truthiness of a `string | null`: `null` and the empty string
are falsy. -/
def jsTruthy (s : Option String) : Option String :=
  match s with
  | none => none
  | some str => if str = "" then none else some str

/-- Standard UTF-8 decoding of a byte list (models
`new TextDecoder('utf-8').decode`), with U+FFFD for malformed lead or
continuation bytes.  `fuel` bounds the recursion; the byte count suffices.
(Overlong or surrogate encodings are not byte-exactly reproduced —
`Char.ofNat` yields U+0000 where `TextDecoder` yields U+FFFD; every
string-pool entry a theorem below touches is plain ASCII, where the model
and `TextDecoder` agree.) -/
def decodeUtf8Go : Nat → List Nat → List Char
  | 0, _ => []
  | _ + 1, [] => []
  | f + 1, b :: rest =>
    if b < 0x80 then Char.ofNat b :: decodeUtf8Go f rest
    else if b < 0xC0 then Char.ofNat 0xFFFD :: decodeUtf8Go f rest
    else if b < 0xE0 then
      match rest with
      | b2 :: r2 =>
        if 0x80 ≤ b2 ∧ b2 < 0xC0 then
          Char.ofNat ((b - 0xC0) * 0x40 + (b2 - 0x80)) :: decodeUtf8Go f r2
        else Char.ofNat 0xFFFD :: decodeUtf8Go f rest
      | [] => [Char.ofNat 0xFFFD]
    else if b < 0xF0 then
      match rest with
      | b2 :: b3 :: r3 =>
        if (0x80 ≤ b2 ∧ b2 < 0xC0) ∧ (0x80 ≤ b3 ∧ b3 < 0xC0) then
          Char.ofNat ((b - 0xE0) * 0x1000 + (b2 - 0x80) * 0x40 + (b3 - 0x80))
            :: decodeUtf8Go f r3
        else Char.ofNat 0xFFFD :: decodeUtf8Go f rest
      | _ => [Char.ofNat 0xFFFD]
    else if b < 0xF8 then
      match rest with
      | b2 :: b3 :: b4 :: r4 =>
        if (0x80 ≤ b2 ∧ b2 < 0xC0) ∧ (0x80 ≤ b3 ∧ b3 < 0xC0) ∧
            (0x80 ≤ b4 ∧ b4 < 0xC0) then
          Char.ofNat ((b - 0xF0) * 0x40000 + (b2 - 0x80) * 0x1000 +
            (b3 - 0x80) * 0x40 + (b4 - 0x80)) :: decodeUtf8Go f r4
        else Char.ofNat 0xFFFD :: decodeUtf8Go f rest
      | _ => [Char.ofNat 0xFFFD]
    else Char.ofNat 0xFFFD :: decodeUtf8Go f rest

/-- UTF-8 decode of a byte list. -/
def decodeUtf8 (bytes : List Nat) : String :=
  String.mk (decodeUtf8Go bytes.length bytes)

/-- `String.fromCharCode` applied to one UTF-16 code unit.  (Surrogate
halves are invalid Lean characters and collapse to U+0000 — the documented
limitation that values outside the Basic Multilingual Plane are not
reconstructed.) -/
def charOfCodeUnit (u : Nat) : Char :=
  Char.ofNat (u % 65536)

/-- `getStringFromStringTable`: UTF-8 entries (flag bit 8 set) read a
length byte at `offset + 1` then that many bytes; UTF-16 entries read a
16-bit code-unit count then that many units.  Constructing the typed-array
view past the buffer end raises a `RangeError` (`eob`), exactly as
`new Uint8Array(buf, offset, l)` does.  (A `Uint16Array` view additionally
requires a 2-byte-aligned offset in JavaScript; that alignment failure is
not modelled — no theorem below exercises a UTF-16 pool.) -/
def getStringFromStringTable (buf : List Nat) (flags offset : Nat) :
    Except DecodeErr String :=
  if flags / 256 % 2 = 1 then
    match getU8 buf (offset + 1) with
    | .error e => .error e
    | .ok l =>
      if offset + 2 + l ≤ buf.length then
        .ok (decodeUtf8 ((buf.drop (offset + 2)).take l))
      else .error .eob
  else
    match getU16 buf offset with
    | .error e => .error e
    | .ok l =>
      if offset + 2 + 2 * l ≤ buf.length then
        .ok (String.mk ((List.range l).map (fun i =>
          match getU16 buf (offset + 2 + 2 * i) with
          | .ok u => charOfCodeUnit u
          | .error _ => Char.ofNat 0)))
      else .error .eob

/-- The entry loop of `parseStringTable`: read the `i`-th entry offset at
`base + (i + 7) * 4`, decode the entry at `strOffset` plus that offset, for
`n` remaining entries. -/
def readStrings (buf : List Nat) (base strOffset flags : Nat) :
    Nat → Nat → Except DecodeErr (List String)
  | _, 0 => .ok []
  | i, n + 1 =>
    match getU32 buf (base + (i + 7) * 4) with
    | .error e => .error e
    | .ok rel =>
      match getStringFromStringTable buf flags (strOffset + rel) with
      | .error e => .error e
      | .ok s =>
        match readStrings buf base strOffset flags (i + 1) n with
        | .error e => .error e
        | .ok rest => .ok (s :: rest)

/-- Two's-complement reinterpretation of a 32-bit unsigned value
(JavaScript `ToInt32`). -/
def toInt32 (n : Nat) : Int :=
  let m := n % 4294967296
  if m < 2147483648 then (m : Int) else (m : Int) - 4294967296

/-- JavaScript signed right shift `n >> k` on a `getUint32` result:
`ToInt32`, then an arithmetic shift (floor division by `2 ^ k`). -/
def jsShr32 (n k : Nat) : Int :=
  Int.fdiv (toInt32 n) (2 ^ k)

/-- `n.toString(16).toUpperCase().padStart(8, '0')`. -/
def hexPad8 (n : Nat) : String :=
  let ds := (Nat.toDigits 16 n).map Char.toUpper
  String.mk (List.replicate (8 - ds.length) '0' ++ ds)

/-- The value of an attribute as JavaScript produces it
(`string | number | boolean`, plus the `NaN` a `number + undefined`
addition yields).  The fraction and float branches involve IEEE-754
arithmetic (`toFixed`, a `Float32Array` round trip); they are kept as
constructors carrying the raw payload, uninterpreted — no claim concerns
them. -/
inductive JsVal
  | str (s : String)
  | num (n : Int)
  | nan
  | bool (b : Bool)
  | fractionFixed (data : Nat)
  | floatBits (data : Nat)
deriving DecidableEq

/-- `getAttributeValue`: dispatch on the type word.  In the `TYPE_DIMEN`
branch the source computes `(data >> 8) + DIMEN[data & 0xFF]`: when the
low byte indexes inside the 6-entry table this is number-plus-string, i.e.
string concatenation; when it does not, `DIMEN[...]` is `undefined` and
number-plus-undefined is the number `NaN`. -/
def getAttributeValue (cnt : Nat) (table : List String) (type data : Nat) :
    JsVal :=
  if type = TYPE_STRING then .str ((getStringM cnt table data).getD "")
  else if type = TYPE_DIMEN then
    match DIMEN.get? (data % 256) with
    | some unit => .str (toString (jsShr32 data 8) ++ unit)
    | none => .nan
  else if type = TYPE_FRACTION then .fractionFixed data
  else if type = TYPE_FLOAT then .floatBits data
  else if type = TYPE_INT ∨ type = TYPE_FLAGS then .num (data : Int)
  else if type = TYPE_BOOL then .bool (data ≠ 0)
  else if type = TYPE_COLOR ∨ type = TYPE_COLOR2 then
    .str ("#" ++ hexPad8 data)
  else if type = TYPE_ID_REF then .str ("@id/0x" ++ hexPad8 data)
  else if type = TYPE_ATTR_REF then .str ("?id/0x" ++ hexPad8 data)
  else .str (hexPad8 type ++ "/0x" ++ hexPad8 data)

/-- A decoded attribute (the `Attribute` interface; the `namespace` and
`prefix` fields — the latter renamed `nsUri`/`pfx` here — are `none` both
for the explicit `null` assignments and for the fields left unset). -/
structure AxmlAttr where
  name : String
  nsUri : Option String
  pfx : Option String
  value : JsVal
deriving DecidableEq

/-- The listener callbacks of `analyse`, reified as events in call order. -/
inductive AxmlEvent
  | startDocument
  | endDocument
  | startPrefixMapping (pfx uri : String)
  | endPrefixMapping (pfx uri : String)
  | startElement (uri localName qName : String) (attrs : List AxmlAttr)
  | endElement (uri localName : String)
  | characterData (data : String)
deriving DecidableEq

/-- The mutable state of one `analyse` run. -/
structure AXState where
  mStringsCount : Nat := 0
  mStringsTable : List String := []
  mFlags : Nat := 0
  mNamespaces : List (String × String) := []
  mParserOffset : Nat := 0
deriving DecidableEq

/-- `parseStringTable`: chunk size, string count, flags and data offset
from the chunk header, then the entry loop; the offset advances by the
chunk size. -/
def parseStringTable (buf : List Nat) (st : AXState) :
    Except DecodeErr AXState :=
  let p := st.mParserOffset
  match getU32 buf (p + WORD_SIZE) with
  | .error e => .error e
  | .ok chunk =>
    match getU32 buf (p + 2 * WORD_SIZE) with
    | .error e => .error e
    | .ok cnt =>
      match getU32 buf (p + 4 * WORD_SIZE) with
      | .error e => .error e
      | .ok flags =>
        match getU32 buf (p + 5 * WORD_SIZE) with
        | .error e => .error e
        | .ok strOffRel =>
          match readStrings buf p (p + strOffRel) flags 0 cnt with
          | .error e => .error e
          | .ok table =>
            .ok { st with
                  mStringsCount := cnt
                  mStringsTable := table
                  mFlags := flags
                  mParserOffset := p + chunk }

/-- The read loop of `parseResourceTable` (the resource ids are read but
never used; only the reads' possible `RangeError` is observable). -/
def readResourceIds (buf : List Nat) (base : Nat) :
    Nat → Nat → Except DecodeErr Unit
  | _, 0 => .ok ()
  | i, n + 1 =>
    match getU32 buf (base + (i + 2) * 4) with
    | .error e => .error e
    | .ok _ => readResourceIds buf base (i + 1) n

/-- `parseResourceTable`: `mResCount = chunk / 4 - 2` iterations of the id
read (the JavaScript count is the real number `chunk / 4 - 2` and the
integer loop variable runs while below it, i.e. `ceil(chunk / 4) - 2`
times); the offset advances by the chunk size. -/
def parseResourceTable (buf : List Nat) (st : AXState) :
    Except DecodeErr AXState :=
  let p := st.mParserOffset
  match getU32 buf (p + WORD_SIZE) with
  | .error e => .error e
  | .ok chunk =>
    match readResourceIds buf p 0 ((chunk + 3) / 4 - 2) with
    | .error e => .error e
    | .ok _ => .ok { st with mParserOffset := p + chunk }

/-- `parseNamespace`: read the prefix and URI string indices; emit the
mapping event and update `mNamespaces` only under the source's truthiness
guards; the offset advances by six words. -/
def parseNamespace (start : Bool) (buf : List Nat) (st : AXState) :
    Except DecodeErr (List AxmlEvent × AXState) :=
  let p := st.mParserOffset
  match getU32 buf (p + 4 * WORD_SIZE) with
  | .error e => .error e
  | .ok prefixIdx =>
    match getU32 buf (p + 5 * WORD_SIZE) with
    | .error e => .error e
    | .ok uriIdx =>
      let uri := getStringM st.mStringsCount st.mStringsTable uriIdx
      let pfx := getStringM st.mStringsCount st.mStringsTable prefixIdx
      let evs :=
        match jsTruthy uri, jsTruthy pfx with
        | some u, some pr =>
          if start then [AxmlEvent.startPrefixMapping pr u]
          else [AxmlEvent.endPrefixMapping pr u]
        | _, _ => []
      let namespaces :=
        if start then
          match jsTruthy uri, jsTruthy pfx with
          | some u, some pr => alSet st.mNamespaces u pr
          | _, _ => st.mNamespaces
        else
          match jsTruthy uri with
          | some u => (st.mNamespaces.filter (fun q => q.1 ≠ u))
          | none => st.mNamespaces
      .ok (evs,
        { st with mNamespaces := namespaces,
                  mParserOffset := p + 6 * WORD_SIZE })

/-- `parseAttribute` at offset `off`: five words — namespace index, name
index, raw-value index, type, data; a raw-value index of `0xFFFFFFFF`
selects the typed decoding. -/
def parseAttribute (buf : List Nat) (cnt : Nat) (table : List String)
    (namespaces : List (String × String)) (off : Nat) :
    Except DecodeErr AxmlAttr :=
  match getU32 buf off with
  | .error e => .error e
  | .ok attrNSIdx =>
    match getU32 buf (off + WORD_SIZE) with
    | .error e => .error e
    | .ok attrNameIdx =>
      match getU32 buf (off + 2 * WORD_SIZE) with
      | .error e => .error e
      | .ok attrValueIdx =>
        match getU32 buf (off + 3 * WORD_SIZE) with
        | .error e => .error e
        | .ok attrType =>
          match getU32 buf (off + 4 * WORD_SIZE) with
          | .error e => .error e
          | .ok attrData =>
            let name := (getStringM cnt table attrNameIdx).getD ""
            let nsPfx : Option String × Option String :=
              if attrNSIdx = 0xFFFFFFFF then (none, none)
              else
                match jsTruthy (getStringM cnt table attrNSIdx) with
                | some uri =>
                  match alGet namespaces uri with
                  | some pr => (some uri, jsTruthy (some pr))
                  | none => (none, none)
                | none => (none, none)
            let value :=
              if attrValueIdx = 0xFFFFFFFF then
                getAttributeValue cnt table attrType attrData
              else JsVal.str ((getStringM cnt table attrValueIdx).getD "")
            .ok { name := name, nsUri := nsPfx.1, pfx := nsPfx.2,
                  value := value }

/-- The attribute loop of `parseStartTag`: `n` attributes of five words
each from `off`; returns the attributes and the offset past them. -/
def parseAttributes (buf : List Nat) (cnt : Nat) (table : List String)
    (namespaces : List (String × String)) :
    Nat → Nat → Except DecodeErr (List AxmlAttr × Nat)
  | off, 0 => .ok ([], off)
  | off, n + 1 =>
    match parseAttribute buf cnt table namespaces off with
    | .error e => .error e
    | .ok a =>
      match parseAttributes buf cnt table namespaces (off + 5 * 4) n with
      | .error e => .error e
      | .ok (rest, off') => .ok (a :: rest, off')

/-- `parseStartTag`: URI and name indices, 16-bit attribute count; the
qualified name gains the active prefix of a known URI; nine header words,
then the attributes. -/
def parseStartTag (buf : List Nat) (st : AXState) :
    Except DecodeErr (List AxmlEvent × AXState) :=
  let p := st.mParserOffset
  match getU32 buf (p + 4 * WORD_SIZE) with
  | .error e => .error e
  | .ok uriIdx =>
    match getU32 buf (p + 5 * WORD_SIZE) with
    | .error e => .error e
    | .ok nameIdx =>
      match getU16 buf (p + 7 * WORD_SIZE) with
      | .error e => .error e
      | .ok attrCount =>
        let name :=
          (getStringM st.mStringsCount st.mStringsTable nameIdx).getD ""
        let uriQ : String × String :=
          if uriIdx = 0xFFFFFFFF then ("", name)
          else
            let uri :=
              (getStringM st.mStringsCount st.mStringsTable uriIdx).getD ""
            match alGet st.mNamespaces uri with
            | some pr => (uri, pr ++ ":" ++ name)
            | none => (uri, name)
        match parseAttributes buf st.mStringsCount st.mStringsTable
            st.mNamespaces (p + 9 * WORD_SIZE) attrCount with
        | .error e => .error e
        | .ok (attrs, off') =>
          .ok ([AxmlEvent.startElement uriQ.1 name uriQ.2 attrs],
            { st with mParserOffset := off' })

/-- `parseText`: the character-data event fires only for a truthy string;
seven words. -/
def parseText (buf : List Nat) (st : AXState) :
    Except DecodeErr (List AxmlEvent × AXState) :=
  let p := st.mParserOffset
  match getU32 buf (p + 4 * WORD_SIZE) with
  | .error e => .error e
  | .ok strIndex =>
    let data := jsTruthy (getStringM st.mStringsCount st.mStringsTable
      strIndex)
    let evs :=
      match data with
      | some d => [AxmlEvent.characterData d]
      | none => []
    .ok (evs, { st with mParserOffset := p + 7 * WORD_SIZE })

/-- `parseEndTag`: URI and name indices; six words. -/
def parseEndTag (buf : List Nat) (st : AXState) :
    Except DecodeErr (List AxmlEvent × AXState) :=
  let p := st.mParserOffset
  match getU32 buf (p + 4 * WORD_SIZE) with
  | .error e => .error e
  | .ok uriIdx =>
    match getU32 buf (p + 5 * WORD_SIZE) with
    | .error e => .error e
    | .ok nameIdx =>
      let name :=
        (getStringM st.mStringsCount st.mStringsTable nameIdx).getD ""
      let uri :=
        if uriIdx = 0xFFFFFFFF then ""
        else (getStringM st.mStringsCount st.mStringsTable uriIdx).getD ""
      .ok ([AxmlEvent.endElement uri name],
        { st with mParserOffset := p + 6 * WORD_SIZE })

/-- One iteration of the main `while` loop of `analyse`: read the leading
word and dispatch.  The returned flag is true exactly on `WORD_EOS` (the
`return` in the source); any word that is none of the nine recognised tags
advances the offset by one word and emits nothing. -/
def analyseStep (buf : List Nat) (st : AXState) :
    Except DecodeErr (List AxmlEvent × AXState × Bool) :=
  match getU32 buf st.mParserOffset with
  | .error e => .error e
  | .ok word0 =>
    if word0 = WORD_START_DOCUMENT then
      .ok ([AxmlEvent.startDocument],
        { st with mParserOffset := st.mParserOffset + 2 * WORD_SIZE }, false)
    else if word0 = WORD_STRING_TABLE then
      match parseStringTable buf st with
      | .error e => .error e
      | .ok st' => .ok ([], st', false)
    else if word0 = WORD_RES_TABLE then
      match parseResourceTable buf st with
      | .error e => .error e
      | .ok st' => .ok ([], st', false)
    else if word0 = WORD_START_NS then
      match parseNamespace true buf st with
      | .error e => .error e
      | .ok (evs, st') => .ok (evs, st', false)
    else if word0 = WORD_END_NS then
      match parseNamespace false buf st with
      | .error e => .error e
      | .ok (evs, st') => .ok (evs, st', false)
    else if word0 = WORD_START_TAG then
      match parseStartTag buf st with
      | .error e => .error e
      | .ok (evs, st') => .ok (evs, st', false)
    else if word0 = WORD_END_TAG then
      match parseEndTag buf st with
      | .error e => .error e
      | .ok (evs, st') => .ok (evs, st', false)
    else if word0 = WORD_TEXT then
      match parseText buf st with
      | .error e => .error e
      | .ok (evs, st') => .ok (evs, st', false)
    else if word0 = WORD_EOS then
      .ok ([AxmlEvent.endDocument], st, true)
    else
      .ok ([], { st with mParserOffset := st.mParserOffset + WORD_SIZE },
        false)

/-- The main loop: while the offset is inside the buffer, run one step;
`endDocument` fires when the loop leaves the buffer or on `WORD_EOS`. -/
def analyseLoop (buf : List Nat) : Nat → AXState →
    Except DecodeErr (List AxmlEvent)
  | 0, _ => .error .noFuel
  | fuel + 1, st =>
    if st.mParserOffset < buf.length then
      match analyseStep buf st with
      | .error e => .error e
      | .ok (evs, st', done) =>
        if done then .ok evs
        else
          match analyseLoop buf fuel st' with
          | .error e => .error e
          | .ok rest => .ok (evs ++ rest)
    else .ok [AxmlEvent.endDocument]

/-- `analyse`: run the loop from the zero offset and the initial state. -/
def analyse (buf : List Nat) (fuel : Nat) :
    Except DecodeErr (List AxmlEvent) :=
  analyseLoop buf fuel {}

/-- The nine chunk type words the dispatch loop recognises. -/
def recognizedWords : List Nat :=
  [WORD_START_DOCUMENT, WORD_STRING_TABLE, WORD_RES_TABLE, WORD_START_NS,
   WORD_END_NS, WORD_START_TAG, WORD_END_TAG, WORD_TEXT, WORD_EOS]

/-- The four bytes of a 32-bit word, little-endian (for building concrete
test buffers). -/
def w32 (n : Nat) : List Nat :=
  [n % 256, n / 256 % 256, n / 65536 % 256, n / 16777216 % 256]

/-! ## Association-list lemmas -/

theorem alGet_alSet_self {α : Type} (m : List (String × α)) (k : String)
    (v : α) : alGet (alSet m k v) k = some v := by
  induction m with
  | nil => simp [alGet, alSet]
  | cons p rest ih =>
    by_cases h : p.1 = k
    · simp [alGet, alSet, h]
    · simp [alGet, alSet, h, ih]

theorem alGet_alSet_ne {α : Type} (m : List (String × α)) (k k' : String)
    (v : α) (h : k' ≠ k) : alGet (alSet m k v) k' = alGet m k' := by
  induction m with
  | nil =>
    simp only [alGet, alSet]
    rw [if_neg (fun hk => h hk.symm)]
  | cons p rest ih =>
    by_cases hp : p.1 = k
    · simp only [alSet, if_pos hp, alGet]
      rw [if_neg (fun hk => h hk.symm), if_neg (by rw [hp]; exact fun hk => h hk.symm)]
    · simp only [alSet, if_neg hp, alGet, ih]

theorem alGet_mem {α : Type} {m : List (String × α)} {k : String} {v : α}
    (h : alGet m k = some v) : (k, v) ∈ m := by
  induction m with
  | nil => simp [alGet] at h
  | cons p rest ih =>
    by_cases hp : p.1 = k
    · simp only [alGet, if_pos hp] at h
      obtain ⟨a, b⟩ := p
      obtain rfl : b = v := by simpa using h
      simp only [List.mem_cons]
      exact Or.inl (by simp at hp; rw [hp])
    · simp only [alGet, if_neg hp] at h
      exact List.mem_cons_of_mem _ (ih h)

theorem mem_alSet {α : Type} {m : List (String × α)} {k : String} {v : α}
    {p : String × α} (h : p ∈ alSet m k v) : p ∈ m ∨ p = (k, v) := by
  induction m with
  | nil => simpa [alSet] using h
  | cons q rest ih =>
    by_cases hq : q.1 = k
    · simp only [alSet, if_pos hq, List.mem_cons] at h
      rcases h with h | h
      · exact Or.inr h
      · exact Or.inl (List.mem_cons_of_mem _ h)
    · simp only [alSet, if_neg hq, List.mem_cons] at h
      rcases h with h | h
      · exact Or.inl (by simp [h])
      · rcases ih h with h | h
        · exact Or.inl (List.mem_cons_of_mem _ h)
        · exact Or.inr h

/-! # The claims -/

/-! ## C1: end-to-end cross-signal merge -/

/-- The catalog entry `{"libacra.so": {uuid:"U1", label:"ACRA"}}` of the
end-to-end property (the remaining fields are arbitrary concrete values;
no claim depends on them). -/
def acraEntry : RuleEntry :=
  { id := "com.acra", uuid := "U1", name := "libacra.so", label := "ACRA",
    category := "crash", categoryLabel := "Crash", categoryIcon := "",
    developer := "", description := "", sourceLink := "", type := "native" }

/-- The two archive entry paths of the end-to-end property. -/
def c1Paths : List String :=
  ["lib/arm64-v8a/libacra-5.9.7.so", "lib/armeabi-v7a/libacra-5.9.7.so"]

/-- The scan result of the two-path archive (no manifest components). -/
def c1Scan : ScanResult :=
  { nativeLibs := (scanNativeLibraries c1Paths).1
    nativeLibsMap := (scanNativeLibraries c1Paths).2
    activities := [], services := [], providers := [], receivers := [] }

/-- The catalog with the single native key "libacra.so". -/
def c1Rules : RulesTables :=
  { native := [("libacra.so", acraEntry)]
    activities := [], services := [], providers := [], receivers := [] }

/-- Claim C1: for an archive containing exactly the two entry paths
`lib/arm64-v8a/libacra-5.9.7.so` and `lib/armeabi-v7a/libacra-5.9.7.so`
and a native catalog mapping "libacra.so" to uuid "U1", the analysis
produces exactly one record, with uuid "U1", count 2, the architecture set
{"arm64-v8a", "armeabi-v7a"} and exactly two location entries. -/
theorem c1_end_to_end :
    (matchLibraries c1Scan c1Rules []).1.map
      (fun l => (l.uuid, l.count, l.architectures, l.locations.length)) =
    [("U1", 2, ["arm64-v8a", "armeabi-v7a"], 2)] := by
  decide

/-! ## C2: matcher priority law -/

/-- Claim C2: with catalog keys "libfoo.so" (entry `A`) and "foo" (entry
`B`) only — in either insertion order — matching "libfoo-5.9.7.so" returns
`A`: the normalized-candidate lookup (version suffix stripped, lib/.so
wrapping restored) precedes any substring match that could return `B`. -/
theorem c2_priority_law (A B : RuleEntry) :
    fuzzyMatchLibrary "libfoo-5.9.7.so" [("libfoo.so", A), ("foo", B)]
      = some A
    ∧ fuzzyMatchLibrary "libfoo-5.9.7.so" [("foo", B), ("libfoo.so", A)]
      = some A :=
  ⟨rfl, rfl⟩

/-! ## C3: hash classification vs. substring matching -/

/-- A catalog entry under the key "3aee", a hex substring of
"liba3aeecd8.so". -/
def hexSubEntry : RuleEntry :=
  { id := "hexsub", uuid := "UB", name := "3aee", label := "HexSub",
    category := "", categoryLabel := "", categoryIcon := "",
    developer := "", description := "", sourceLink := "", type := "native" }

/-- Counterexample to claim C3: "libA3AEECD8.so" has a purely hexadecimal
8-character core token, yet with the catalog key "3aee" — a hex substring
of the name, hit by no exact or normalized-candidate lookup — the matcher
returns that entry rather than unmatched: the substring tier (priority 6)
runs before the hash-name test (priority 7). -/
theorem c3_counterexample :
    isHashName "libA3AEECD8.so" = true
    ∧ fuzzyMatchLibrary "libA3AEECD8.so" [("3aee", hexSubEntry)]
        = some hexSubEntry := by
  decide

/-- Claim C3 as amended: an input name with a purely hexadecimal 8-16
character core token is returned as unmatched only when the exact lookup,
every normalized-candidate lookup and the substring scan all fail; the
substring tier precedes the hash classification, so a catalog key that is
a substring of the name (case-insensitive, ".so"-stripped, in either
direction) wins over it. -/
theorem c3_amended (name : String) (rulesMap : RMap)
    (hHash : isHashName name = true)
    (hExact : alGet rulesMap name = none)
    (hNorm : firstNormalizedHit rulesMap (generateNormalizedNames name)
      = none)
    (hSub : findSubstringMatch name rulesMap = none) :
    fuzzyMatchLibrary name rulesMap = none := by
  unfold fuzzyMatchLibrary
  rw [hExact, hNorm, hSub]

/-- Witness for the amended C3 at a concrete input: the hash-shaped name
"libA3AEECD8.so" against the empty catalog is unmatched. -/
theorem c3_amended_witness :
    fuzzyMatchLibrary "libA3AEECD8.so" [] = none :=
  c3_amended "libA3AEECD8.so" [] (by decide) (by decide) (by decide)
    (by decide)

/-! ## C4: decode failure taxonomy -/

/-- A well-formed buffer holding a UTF-8 string pool with exactly one
entry ("a") followed by a start tag whose name index 5 lies outside
`[0, 1)`, then the end-of-stream word. -/
def c4BufOk : List Nat :=
  w32 WORD_STRING_TABLE ++ w32 36 ++ w32 1 ++ w32 0 ++ w32 256 ++ w32 32 ++
  w32 0 ++ w32 0 ++ [0, 1, 97, 0] ++
  w32 WORD_START_TAG ++ w32 0 ++ w32 0 ++ w32 0 ++ w32 0xFFFFFFFF ++
  w32 5 ++ w32 0 ++ w32 0 ++ w32 0 ++ w32 WORD_EOS

/-- A buffer truncated in the middle of a start-tag chunk (three words of
a chunk that reads at word offsets 4 and 5). -/
def c4BufTrunc : List Nat := w32 WORD_START_TAG ++ w32 0 ++ w32 0

/-- Counterexample to claim C4: decoding a buffer whose start tag carries
the out-of-range string-pool reference 5 (the pool has one entry) succeeds
— the reference is absorbed as `null` and rendered as the empty tag name —
rather than failing with a string-index decode error. -/
theorem c4_counterexample :
    getStringM 1 ["a"] 5 = none
    ∧ analyse c4BufOk 10 =
        .ok [AxmlEvent.startElement "" "" "" [], AxmlEvent.endDocument] := by
  decide

/-- Claim C4 as amended: decode failure carries only the end-of-buffer
error — every read whose bytes would lie past the buffer end raises it
(so a buffer truncated mid-chunk fails with it and is never read out of
bounds) — while a string-pool reference outside `[0, count)` is not an
error: `getString` yields `null`, the callers absorb it, and decode
succeeds. -/
theorem c4_amended :
    (∀ (buf : List Nat) (off : Nat), buf.length < off + 4 →
      getU32 buf off = .error .eob)
    ∧ (∀ (cnt : Nat) (table : List String) (idx : Nat), cnt ≤ idx →
      getStringM cnt table idx = none)
    ∧ analyse c4BufTrunc 10 = .error .eob
    ∧ analyse c4BufOk 10 =
        .ok [AxmlEvent.startElement "" "" "" [], AxmlEvent.endDocument] := by
  refine ⟨fun buf off h => ?_, fun cnt table idx h => ?_, by decide,
    by decide⟩
  · unfold getU32
    rw [if_neg (by omega)]
  · unfold getStringM
    rw [if_neg (by omega)]

/-- Witness for the amended C4 at concrete inputs: a four-byte read from
the empty buffer raises the end-of-buffer error, and index 5 against a
one-entry pool resolves to `null`. -/
theorem c4_amended_witness :
    getU32 [] 0 = .error .eob ∧ getStringM 1 ["a"] 5 = none :=
  ⟨c4_amended.1 [] 0 (by decide), c4_amended.2.1 1 ["a"] 5 (by decide)⟩

/-! ## C7: unknown-chunk skip policy -/

/-- Claim C7: whenever the 32-bit word at the current offset is readable
and is none of the nine recognised chunk tags, the dispatch step advances
the offset by exactly one word, emits nothing, does not stop the loop, and
raises no error — for every such word value. -/
theorem c7_unknown_chunk_skip (buf : List Nat) (st : AXState) (w : Nat)
    (hread : getU32 buf st.mParserOffset = .ok w)
    (hunk : w ∉ recognizedWords) :
    analyseStep buf st =
      .ok ([], { st with mParserOffset := st.mParserOffset + WORD_SIZE },
        false) := by
  simp only [recognizedWords, List.mem_cons, List.not_mem_nil, or_false,
    not_or] at hunk
  obtain ⟨h1, h2, h3, h4, h5, h6, h7, h8, h9⟩ := hunk
  unfold analyseStep
  rw [hread]
  simp only [if_neg h1, if_neg h2, if_neg h3, if_neg h4, if_neg h5,
    if_neg h6, if_neg h7, if_neg h8, if_neg h9]

/-- Witness for C7 at a concrete input: the unrecognised word 7 at offset
0 is skipped in one word with no event and no error. -/
theorem c7_witness :
    analyseStep (w32 7) {} =
      .ok ([], { mParserOffset := 4 }, false) :=
  c7_unknown_chunk_skip (w32 7) {} 7 (by decide) (by decide)

/-! ## C8: matcher memoization keyed by the literal name -/

/-- Claim C8: after a first cached-matcher call on a name (with any
catalog table), every later call on the same literal name returns the
first call's result and leaves the cache unchanged, whatever catalog table
is supplied — stale results persist until the cache is cleared, after
which the supplied table is consulted afresh. -/
theorem c8_memoization (name : String) (map1 map2 : RMap)
    (cache : MatchCache) (h : alGet cache name = none) :
    (fuzzyMatchLibraryWithCache name map2
        (fuzzyMatchLibraryWithCache name map1 cache).2)
      = ((fuzzyMatchLibraryWithCache name map1 cache).1,
         (fuzzyMatchLibraryWithCache name map1 cache).2)
    ∧ (fuzzyMatchLibraryWithCache name map1 cache).1
      = fuzzyMatchLibrary name map1
    ∧ (fuzzyMatchLibraryWithCache name map2 clearMatchCache).1
      = fuzzyMatchLibrary name map2 := by
  unfold fuzzyMatchLibraryWithCache clearMatchCache
  rw [h]
  simp only [alGet_alSet_self, alGet]
  exact ⟨trivial, trivial, trivial⟩

/-- Witness for C8 at concrete inputs: the name "libzzz.so" first matched
against a catalog holding it exactly stays matched to that entry when
re-queried against the empty catalog. -/
theorem c8_witness :
    (fuzzyMatchLibraryWithCache "libzzz.so" []
        (fuzzyMatchLibraryWithCache "libzzz.so" [("libzzz.so", acraEntry)]
          []).2).1
      = some acraEntry := by
  have h := c8_memoization "libzzz.so" [("libzzz.so", acraEntry)] [] []
    (by decide)
  rw [h.1]
  decide

/-! ## C9: candidate generation is pure and deterministic -/

/-- Claim C9: candidate generation is a pure function of the input name —
in this embedding, faithful to the source (whose `Set` is local and which
reads no external state), two applications to the same name are the same
ordered candidate sequence by reflexivity. -/
theorem c9_deterministic (name : String) :
    generateNormalizedNames name = generateNormalizedNames name := rfl

/-! ## C10: dimension decoding with an out-of-table unit index -/

/-- Counterexample to claim C10: for a dimension payload with low byte 6
(data 774 = 3·256 + 6), the decoder yields the JavaScript number `NaN`
(number-plus-`undefined` is numeric addition), not the string
"3undefined" that string concatenation would give. -/
theorem c10_counterexample :
    getAttributeValue 0 [] TYPE_DIMEN 774 = JsVal.nan
    ∧ JsVal.nan ≠ JsVal.str "3undefined" := by
  decide

/-- Claim C10 as amended: for every dimension-typed attribute whose low
byte is 6 or more, the decoder neither fails nor falls back to the
unrecognized-type rendering — the out-of-table `DIMEN` lookup is
`undefined`, and the JavaScript addition of the magnitude with `undefined`
produces the number `NaN` (not the magnitude concatenated with the string
"undefined"). -/
theorem c10_amended (cnt : Nat) (table : List String) (data : Nat)
    (h : 6 ≤ data % 256) :
    getAttributeValue cnt table TYPE_DIMEN data = JsVal.nan := by
  unfold getAttributeValue
  rw [if_neg (by decide), if_pos rfl]
  have hd : DIMEN.get? (data % 256) = none := by
    rw [List.get?_eq_none]
    simpa [DIMEN] using h
  rw [hd]

/-- Witness for the amended C10 at a concrete input: payload 774 decodes
to `NaN`. -/
theorem c10_amended_witness :
    getAttributeValue 0 [] TYPE_DIMEN 774 = JsVal.nan :=
  c10_amended 0 [] 774 (by decide)

/-! ## C5: asymmetric unmatched handling in aggregation -/

/-- Every entry a successful match can return comes from the supplied
table: the exact tier. -/
theorem firstNormalizedHit_mem {t : RMap} {e : RuleEntry} :
    ∀ {cands : List String}, firstNormalizedHit t cands = some e →
      ∃ p ∈ t, p.2 = e := by
  intro cands
  induction cands with
  | nil => intro h; simp [firstNormalizedHit] at h
  | cons c cs ih =>
    intro h
    simp only [firstNormalizedHit] at h
    cases hg : alGet t c with
    | some e2 =>
      rw [hg] at h
      exact ⟨(c, e2), alGet_mem hg, by simpa using h⟩
    | none =>
      rw [hg] at h
      exact ih h

theorem findSubstringMatchGo_mem {nn : String} {e : RuleEntry} :
    ∀ {t : RMap}, findSubstringMatchGo nn t = some e → ∃ p ∈ t, p.2 = e := by
  intro t
  induction t with
  | nil => intro h; simp [findSubstringMatchGo] at h
  | cons p rest ih =>
    intro h
    simp only [findSubstringMatchGo] at h
    by_cases h1 : jsIncludes nn (removeExtension (jsToLower p.1)) = true
    · rw [if_pos h1] at h
      exact ⟨p, List.mem_cons_self _ _, by simpa using h⟩
    · rw [if_neg h1] at h
      by_cases h2 :
          jsIncludes (jsToLower p.1) (removeExtension nn) = true
      · rw [if_pos h2] at h
        exact ⟨p, List.mem_cons_self _ _, by simpa using h⟩
      · rw [if_neg h2] at h
        obtain ⟨q, hq, hqe⟩ := ih h
        exact ⟨q, List.mem_cons_of_mem _ hq, hqe⟩

/-- A successful `fuzzyMatchLibrary` result is a value of the supplied
table. -/
theorem fuzzyMatchLibrary_mem {n : String} {t : RMap} {e : RuleEntry}
    (h : fuzzyMatchLibrary n t = some e) : ∃ p ∈ t, p.2 = e := by
  unfold fuzzyMatchLibrary at h
  cases h1 : alGet t n with
  | some e1 =>
    rw [h1] at h
    exact ⟨(n, e1), alGet_mem h1, by simpa using h⟩
  | none =>
    rw [h1] at h
    cases h2 : firstNormalizedHit t (generateNormalizedNames n) with
    | some e2 =>
      rw [h2] at h
      obtain rfl : e2 = e := by simpa using h
      exact firstNormalizedHit_mem h2
    | none =>
      rw [h2] at h
      cases h3 : findSubstringMatch n t with
      | some e3 =>
        rw [h3] at h
        obtain rfl : e3 = e := by simpa using h
        exact findSubstringMatchGo_mem h3
      | none => rw [h3] at h; simp at h

/-- Every cached value satisfies `P` (vacuously for cached `null`s). -/
def cacheBound (P : RuleEntry → Prop) (c : MatchCache) : Prop :=
  ∀ p ∈ c, ∀ e : RuleEntry, p.2 = some e → P e

/-- Every table value satisfies `P`. -/
def tableBound (P : RuleEntry → Prop) (t : RMap) : Prop :=
  ∀ p ∈ t, P p.2

theorem withCache_eq_of_get_some {n : String} {t : RMap} {c : MatchCache}
    {r : Option RuleEntry} (h : alGet c n = some r) :
    fuzzyMatchLibraryWithCache n t c = (r, c) := by
  simp only [fuzzyMatchLibraryWithCache, h]

theorem withCache_eq_of_get_none {n : String} {t : RMap} {c : MatchCache}
    (h : alGet c n = none) :
    fuzzyMatchLibraryWithCache n t c
      = (fuzzyMatchLibrary n t, alSet c n (fuzzyMatchLibrary n t)) := by
  simp only [fuzzyMatchLibraryWithCache, h]

theorem withCache_bound {P : RuleEntry → Prop} {n : String} {t : RMap}
    {c : MatchCache} (ht : tableBound P t) (hc : cacheBound P c) :
    cacheBound P (fuzzyMatchLibraryWithCache n t c).2
    ∧ ∀ e : RuleEntry, (fuzzyMatchLibraryWithCache n t c).1 = some e →
        P e := by
  cases hg : alGet c n with
  | some r =>
    rw [withCache_eq_of_get_some hg]
    exact ⟨hc, fun e he => hc _ (alGet_mem hg) e he⟩
  | none =>
    rw [withCache_eq_of_get_none hg]
    have hfm : ∀ e : RuleEntry, fuzzyMatchLibrary n t = some e → P e := by
      intro e he
      obtain ⟨q, hq, hqe⟩ := fuzzyMatchLibrary_mem he
      exact hqe ▸ ht q hq
    constructor
    · intro p hp e he
      rcases mem_alSet hp with hp | hp
      · exact hc p hp e he
      · rw [hp] at he
        exact hfm e he
    · exact hfm

theorem withCache_cache_get_ne {n : String} {t : RMap} {c : MatchCache}
    {k : String} (hk : k ≠ n) :
    alGet (fuzzyMatchLibraryWithCache n t c).2 k = alGet c k := by
  cases hg : alGet c n with
  | some r => rw [withCache_eq_of_get_some hg]
  | none =>
    rw [withCache_eq_of_get_none hg]
    exact alGet_alSet_ne c n k _ hk

/-- The cache produced by one native iteration is always the with-cache
call's cache, whatever the match outcome. -/
theorem processNativeOne_cache (native : RMap) (nlMap : NLMap)
    (lm : LibMap) (c : MatchCache) (n : String) :
    (processNativeOne native nlMap (lm, c) n).2
      = (fuzzyMatchLibraryWithCache n native c).2 := by
  rcases hw : fuzzyMatchLibraryWithCache n native c with ⟨matched, c2⟩
  simp only [processNativeOne, hw]
  cases matched with
  | some m =>
    cases h2 : alGet lm (uuidOrId m) <;> simp only [h2]
  | none =>
    cases h2 : alGet lm n <;> simp only [h2]

theorem processNativeOne_preserve {P : RuleEntry → Prop} {key : String}
    {native : RMap} {nlMap : NLMap} {lm : LibMap} {c : MatchCache}
    {n : String} (ht : tableBound P native) (hc : cacheBound P c)
    (hkey : ∀ e : RuleEntry, P e → uuidOrId e ≠ key) (hn : n ≠ key) :
    alGet (processNativeOne native nlMap (lm, c) n).1 key = alGet lm key
    ∧ cacheBound P (processNativeOne native nlMap (lm, c) n).2 := by
  obtain ⟨hcb, hres⟩ := withCache_bound (n := n) ht hc
  rcases hw : fuzzyMatchLibraryWithCache n native c with ⟨matched, c2⟩
  rw [hw] at hcb hres
  simp only [processNativeOne, hw]
  cases matched with
  | some m =>
    have hne : key ≠ uuidOrId m :=
      fun h => hkey m (hres m rfl) h.symm
    cases h2 : alGet lm (uuidOrId m) with
    | some existing =>
      simp only [h2]
      exact ⟨alGet_alSet_ne lm _ key _ hne, hcb⟩
    | none =>
      simp only [h2]
      exact ⟨alGet_alSet_ne lm _ key _ hne, hcb⟩
  | none =>
    cases h2 : alGet lm n with
    | some existing =>
      simp only [h2]
      exact ⟨trivial, hcb⟩
    | none =>
      simp only [h2]
      exact ⟨alGet_alSet_ne lm _ key _ (fun h => hn h.symm), hcb⟩

theorem processNative_fold_preserve {P : RuleEntry → Prop} {key : String}
    (native : RMap) (nlMap : NLMap) (ht : tableBound P native)
    (hkey : ∀ e : RuleEntry, P e → uuidOrId e ≠ key) :
    ∀ (names : List String) (lm : LibMap) (c : MatchCache),
      cacheBound P c → key ∉ names →
      alGet ((names.foldl (processNativeOne native nlMap) (lm, c)).1) key
        = alGet lm key
      ∧ cacheBound P
          ((names.foldl (processNativeOne native nlMap) (lm, c)).2) := by
  intro names
  induction names with
  | nil => exact fun lm c hc _ => ⟨rfl, hc⟩
  | cons n ns ih =>
    intro lm c hc hmem
    have hn : n ≠ key := fun h => hmem (h ▸ List.mem_cons_self n ns)
    have hns : key ∉ ns := fun h => hmem (List.mem_cons_of_mem _ h)
    obtain ⟨h1, h2⟩ := processNativeOne_preserve ht hc hkey hn
    rcases hst : processNativeOne native nlMap (lm, c) n with ⟨lm1, c1⟩
    rw [hst] at h1 h2
    have hrec := ih lm1 c1 h2 hns
    simp only [List.foldl_cons, hst]
    exact ⟨hrec.1.trans h1, hrec.2⟩

theorem processNative_fold_cache_ne (native : RMap) (nlMap : NLMap)
    (k : String) :
    ∀ (names : List String) (lm : LibMap) (c : MatchCache), k ∉ names →
      alGet ((names.foldl (processNativeOne native nlMap) (lm, c)).2) k
        = alGet c k := by
  intro names
  induction names with
  | nil => exact fun lm c _ => rfl
  | cons n ns ih =>
    intro lm c hmem
    have hn : k ≠ n := fun h => hmem (h ▸ List.mem_cons_self n ns)
    have hns : k ∉ ns := fun h => hmem (List.mem_cons_of_mem _ h)
    rcases hst : processNativeOne native nlMap (lm, c) n with ⟨lm1, c1⟩
    have hpc := processNativeOne_cache native nlMap lm c n
    rw [hst] at hpc
    have hc1 : alGet c1 k = alGet c k := by
      have h2 : c1 = (fuzzyMatchLibraryWithCache n native c).2 := hpc
      rw [h2]
      exact withCache_cache_get_ne hn
    simp only [List.foldl_cons, hst]
    exact (ih lm1 c1 hns).trans hc1

/-- The unmatched-native insertion step: with the name uncached, unmatched
by the table, and its key absent from the map, the placeholder record is
inserted under the literal filename. -/
theorem processNativeOne_unmatched_insert {native : RMap} (nlMap : NLMap)
    {lm : LibMap} {c : MatchCache} {name : String}
    (hcache : alGet c name = none)
    (hmatch : fuzzyMatchLibrary name native = none)
    (hlm : alGet lm name = none) :
    (processNativeOne native nlMap (lm, c) name).1
      = alSet lm name (unmatchedLibrary name (alGet nlMap name))
    ∧ (processNativeOne native nlMap (lm, c) name).2
      = alSet c name none := by
  have hw : fuzzyMatchLibraryWithCache name native c
      = (none, alSet c name none) := by
    simp only [fuzzyMatchLibraryWithCache, hcache, hmatch]
  simp only [processNativeOne, hw, hlm]
  refine ⟨?_, ?_⟩ <;> trivial

theorem processComponentOne_preserve {P : RuleEntry → Prop} {key : String}
    {tag : String} {table : RMap} {lm : LibMap} {c : MatchCache}
    {n : String} (ht : tableBound P table) (hc : cacheBound P c)
    (hkey : ∀ e : RuleEntry, P e → uuidOrId e ≠ key) :
    alGet (processComponentOne tag table (lm, c) n).1 key = alGet lm key
    ∧ cacheBound P (processComponentOne tag table (lm, c) n).2 := by
  obtain ⟨hcb, hres⟩ := withCache_bound (n := n) ht hc
  rcases hw : fuzzyMatchLibraryWithCache n table c with ⟨matched, c2⟩
  rw [hw] at hcb hres
  simp only [processComponentOne, hw]
  cases matched with
  | none => exact ⟨rfl, hcb⟩
  | some m =>
    have hne : key ≠ uuidOrId m :=
      fun h => hkey m (hres m rfl) h.symm
    cases h2 : alGet lm (uuidOrId m) with
    | some existing =>
      simp only [h2]
      exact ⟨alGet_alSet_ne lm _ key _ hne, hcb⟩
    | none =>
      simp only [h2]
      exact ⟨alGet_alSet_ne lm _ key _ hne, hcb⟩

theorem processComponent_fold_preserve {P : RuleEntry → Prop}
    {key : String} (tag : String) (table : RMap)
    (ht : tableBound P table)
    (hkey : ∀ e : RuleEntry, P e → uuidOrId e ≠ key) :
    ∀ (names : List String) (lm : LibMap) (c : MatchCache),
      cacheBound P c →
      alGet ((names.foldl (processComponentOne tag table) (lm, c)).1) key
        = alGet lm key
      ∧ cacheBound P
          ((names.foldl (processComponentOne tag table) (lm, c)).2) := by
  intro names
  induction names with
  | nil => exact fun lm c hc => ⟨rfl, hc⟩
  | cons n ns ih =>
    intro lm c hc
    obtain ⟨h1, h2⟩ := processComponentOne_preserve ht hc hkey (n := n)
    rcases hst : processComponentOne tag table (lm, c) n with ⟨lm1, c1⟩
    rw [hst] at h1 h2
    have hrec := ih lm1 c1 h2
    simp only [List.foldl_cons, hst]
    exact ⟨hrec.1.trans h1, hrec.2⟩

theorem mem_insertBy {α : Type} (le : α → α → Bool) (x y : α)
    (l : List α) : x ∈ insertBy le y l ↔ x = y ∨ x ∈ l := by
  induction l with
  | nil => simp [insertBy]
  | cons z zs ih =>
    unfold insertBy
    by_cases h : le y z
    · simp [h]
    · simp only [if_neg h, List.mem_cons, ih]
      tauto

theorem mem_sortBy {α : Type} (le : α → α → Bool) (x : α) (l : List α) :
    x ∈ sortBy le l ↔ x ∈ l := by
  induction l with
  | nil => simp [sortBy]
  | cons y ys ih =>
    show x ∈ insertBy le y (sortBy le ys) ↔ _
    rw [mem_insertBy, ih]
    simp

/-- Membership of an entry value in any of the five rule tables. -/
def InAnyTable (rules : RulesTables) (e : RuleEntry) : Prop :=
  (∃ p ∈ rules.native, p.2 = e) ∨ (∃ p ∈ rules.activities, p.2 = e) ∨
  (∃ p ∈ rules.services, p.2 = e) ∨ (∃ p ∈ rules.providers, p.2 = e) ∨
  (∃ p ∈ rules.receivers, p.2 = e)

/-- No catalog entry of any table carries `name` as its merge key
(`uuid`-or-`id`): the claim's implicit precondition that the literal
filename is not also a catalog identity. -/
def NoKeyCollision (rules : RulesTables) (name : String) : Prop :=
  ∀ e : RuleEntry, InAnyTable rules e → uuidOrId e ≠ name

/-- All names of the list are unmatched when run through the cached
matcher in sequence from the given cache (mirroring the component loops'
cache threading). -/
def allUnmatchedB (table : RMap) : MatchCache → List String → Bool
  | _, [] => true
  | cache, n :: ns =>
    match fuzzyMatchLibraryWithCache n table cache with
    | (none, cache2) => allUnmatchedB table cache2 ns
    | (some _, _) => false

/-- Claim C5: asymmetric unmatched handling.  (a) Every native library
name that matches no catalog entry (with a fresh cache, distinct scanned
filenames, and no catalog entry whose merge key collides with the literal
filename) yields a placeholder record in the final output, keyed by the
literal filename and carrying the scanner's count, locations and
architectures for it.  (b) A component name that matches no catalog entry
contributes nothing: a component fold whose names are all unmatched leaves
the library map exactly as it was, so no record for such a name appears in
the final output. -/
theorem c5_asymmetric_unmatched :
    (∀ (scan : ScanResult) (rules : RulesTables) (name : String),
      scan.nativeLibs.Nodup →
      name ∈ scan.nativeLibs →
      fuzzyMatchLibrary name rules.native = none →
      NoKeyCollision rules name →
      unmatchedLibrary name (alGet scan.nativeLibsMap name)
        ∈ (matchLibraries scan rules []).1)
    ∧ (∀ (tag : String) (table : RMap) (names : List String)
        (cache : MatchCache) (lm : LibMap),
        allUnmatchedB table cache names = true →
        (names.foldl (processComponentOne tag table) (lm, cache)).1
          = lm) := by
  constructor
  · intro scan rules name hnd hmem hunm hcol
    obtain ⟨pre, post, hsplit⟩ := List.append_of_mem hmem
    have hnd2 : (pre ++ name :: post).Nodup := hsplit ▸ hnd
    rw [List.nodup_append] at hnd2
    obtain ⟨hpreN, hconsN, hdisj⟩ := hnd2
    have hnpost : name ∉ post := (List.nodup_cons.mp hconsN).1
    have hnpre : name ∉ pre :=
      fun h => hdisj h (List.mem_cons_self name post)
    have htN : tableBound (fun e => ∃ p ∈ rules.native, p.2 = e)
        rules.native := fun p hp => ⟨p, hp, rfl⟩
    have hkeyN : ∀ e : RuleEntry, (∃ p ∈ rules.native, p.2 = e) →
        uuidOrId e ≠ name := fun e he => hcol e (Or.inl he)
    have hcb0 : cacheBound (fun e => ∃ p ∈ rules.native, p.2 = e)
        ([] : MatchCache) := fun p hp => absurd hp (List.not_mem_nil p)
    rcases h1 : pre.foldl
        (processNativeOne rules.native scan.nativeLibsMap) ([], [])
      with ⟨lm1, c1⟩
    have hpre1 := processNative_fold_preserve rules.native
      scan.nativeLibsMap htN hkeyN pre [] [] hcb0 hnpre
    rw [h1] at hpre1
    have hlm1 : alGet lm1 name = none := by
      have := hpre1.1
      simpa [alGet] using this
    have hcb1 : cacheBound (fun e => ∃ p ∈ rules.native, p.2 = e) c1 :=
      hpre1.2
    have hcget1 : alGet c1 name = none := by
      have hcn := processNative_fold_cache_ne rules.native
        scan.nativeLibsMap name pre [] [] hnpre
      rw [h1] at hcn
      simpa [alGet] using hcn
    obtain ⟨hins1, hins2⟩ := processNativeOne_unmatched_insert
      scan.nativeLibsMap hcget1 hunm hlm1
    rcases h2 : processNativeOne rules.native scan.nativeLibsMap
        (lm1, c1) name with ⟨lm2, c2⟩
    rw [h2] at hins1 hins2
    have hlm2 : alGet lm2 name
        = some (unmatchedLibrary name (alGet scan.nativeLibsMap name)) := by
      rw [show lm2 = alSet lm1 name
        (unmatchedLibrary name (alGet scan.nativeLibsMap name)) from hins1]
      exact alGet_alSet_self lm1 name _
    have hcb2 : cacheBound (fun e => ∃ p ∈ rules.native, p.2 = e) c2 := by
      rw [show c2 = alSet c1 name none from hins2]
      intro p hp e he
      rcases mem_alSet hp with hp | hp
      · exact hcb1 p hp e he
      · rw [hp] at he
        simp at he
    have hpost1 := processNative_fold_preserve rules.native
      scan.nativeLibsMap htN hkeyN post lm2 c2 hcb2 hnpost
    rcases h3 : post.foldl
        (processNativeOne rules.native scan.nativeLibsMap) (lm2, c2)
      with ⟨lm3, c3⟩
    rw [h3] at hpost1
    have hlm3 : alGet lm3 name
        = some (unmatchedLibrary name (alGet scan.nativeLibsMap name)) :=
      hpost1.1.trans hlm2
    have hcb3 : cacheBound (InAnyTable rules) c3 :=
      fun p hp e he => Or.inl (hpost1.2 p hp e he)
    have htA : tableBound (InAnyTable rules) rules.activities :=
      fun p hp => Or.inr (Or.inl ⟨p, hp, rfl⟩)
    have htS : tableBound (InAnyTable rules) rules.services :=
      fun p hp => Or.inr (Or.inr (Or.inl ⟨p, hp, rfl⟩))
    have htP : tableBound (InAnyTable rules) rules.providers :=
      fun p hp => Or.inr (Or.inr (Or.inr (Or.inl ⟨p, hp, rfl⟩)))
    have htR : tableBound (InAnyTable rules) rules.receivers :=
      fun p hp => Or.inr (Or.inr (Or.inr (Or.inr ⟨p, hp, rfl⟩)))
    rcases h4 : scan.activities.foldl
        (processComponentOne "Activity: " rules.activities) (lm3, c3)
      with ⟨lm4, c4⟩
    have hf4 := processComponent_fold_preserve "Activity: "
      rules.activities htA hcol scan.activities lm3 c3 hcb3
    rw [h4] at hf4
    rcases h5 : scan.services.foldl
        (processComponentOne "Service: " rules.services) (lm4, c4)
      with ⟨lm5, c5⟩
    have hf5 := processComponent_fold_preserve "Service: "
      rules.services htS hcol scan.services lm4 c4 hf4.2
    rw [h5] at hf5
    rcases h6 : scan.providers.foldl
        (processComponentOne "Provider: " rules.providers) (lm5, c5)
      with ⟨lm6, c6⟩
    have hf6 := processComponent_fold_preserve "Provider: "
      rules.providers htP hcol scan.providers lm5 c5 hf5.2
    rw [h6] at hf6
    rcases h7 : scan.receivers.foldl
        (processComponentOne "Receiver: " rules.receivers) (lm6, c6)
      with ⟨lm7, c7⟩
    have hf7 := processComponent_fold_preserve "Receiver: "
      rules.receivers htR hcol scan.receivers lm6 c6 hf6.2
    rw [h7] at hf7
    have hlm7 : alGet lm7 name
        = some (unmatchedLibrary name (alGet scan.nativeLibsMap name)) :=
      hf7.1.trans (hf6.1.trans (hf5.1.trans (hf4.1.trans hlm3)))
    have hmem7 : (name,
        unmatchedLibrary name (alGet scan.nativeLibsMap name)) ∈ lm7 :=
      alGet_mem hlm7
    unfold matchLibraries
    simp only
    rw [hsplit, List.foldl_append, h1, List.foldl_cons, h2, h3, h4, h5,
      h6, h7, mem_sortBy]
    exact List.mem_map_of_mem _ hmem7
  · intro tag table names
    induction names with
    | nil => intro cache lm _; rfl
    | cons n ns ih =>
      intro cache lm h
      rcases hw : fuzzyMatchLibraryWithCache n table cache with ⟨r, c2⟩
      cases r with
      | some e =>
        rw [allUnmatchedB, hw] at h
        exact absurd h (by simp)
      | none =>
        simp only [allUnmatchedB, hw] at h
        have hstep : processComponentOne tag table (lm, cache) n
            = (lm, c2) := by
          simp only [processComponentOne, hw]
        rw [List.foldl_cons, hstep]
        exact ih c2 lm h

/-- The one-native-library, one-unmatched-activity scan for the C5
witness. -/
def c5ScanW : ScanResult :=
  { nativeLibs := (scanNativeLibraries ["lib/x86/libzzz.so"]).1
    nativeLibsMap := (scanNativeLibraries ["lib/x86/libzzz.so"]).2
    activities := ["com.x.A"], services := [], providers := []
    receivers := [] }

/-- The empty rule tables for the C5 witness. -/
def c5RulesW : RulesTables :=
  { native := [], activities := [], services := [], providers := []
    receivers := [] }

/-- Witness for C5 at concrete inputs: with an empty catalog, the scanned
native library "libzzz.so" surfaces as its placeholder record in the final
output, while the unmatched activity "com.x.A" leaves the library map
untouched. -/
theorem c5_witness :
    unmatchedLibrary "libzzz.so" (alGet c5ScanW.nativeLibsMap "libzzz.so")
      ∈ (matchLibraries c5ScanW c5RulesW []).1
    ∧ ((["com.x.A"].foldl (processComponentOne "Activity: " [])
        ([], [])).1 = ([] : LibMap)) := by
  constructor
  · refine c5_asymmetric_unmatched.1 c5ScanW c5RulesW "libzzz.so"
      (by decide) (by decide) (by decide) ?_
    intro e he
    rcases he with ⟨p, hp, _⟩ | ⟨p, hp, _⟩ | ⟨p, hp, _⟩ | ⟨p, hp, _⟩ |
      ⟨p, hp, _⟩ <;> exact absurd hp (List.not_mem_nil p)
  · exact c5_asymmetric_unmatched.2 "Activity: " [] ["com.x.A"] [] []
      (by decide)

/-! ## C6: native-library scanning shape filter -/

theorem splitChars_ne_nil (sep : Char) (l : List Char) :
    splitChars sep l ≠ [] := by
  induction l with
  | nil => simp [splitChars]
  | cons c rest ih =>
    simp only [splitChars]
    cases hs : splitChars sep rest with
    | nil => simp
    | cons h t => by_cases hc : c = sep <;> simp [hc]

theorem splitChars_head_tail (sep : Char) (l : List Char) :
    splitChars sep l
      = (splitChars sep l).headD [] :: (splitChars sep l).tail := by
  cases hs : splitChars sep l with
  | nil => exact absurd hs (splitChars_ne_nil sep l)
  | cons h t => rfl

theorem splitChars_cons_sep (sep : Char) (l : List Char) :
    splitChars sep (sep :: l) = [] :: splitChars sep l := by
  simp only [splitChars]
  cases hs : splitChars sep l with
  | nil => exact absurd hs (splitChars_ne_nil sep l)
  | cons h t => simp

theorem splitChars_cons_ne (sep c : Char) (l : List Char) (h : c ≠ sep) :
    splitChars sep (c :: l)
      = (c :: (splitChars sep l).headD []) :: (splitChars sep l).tail := by
  simp only [splitChars]
  cases hs : splitChars sep l with
  | nil => exact absurd hs (splitChars_ne_nil sep l)
  | cons hd t => simp [h]

theorem splitChars_append_nosep (sep : Char) (a l : List Char)
    (h : sep ∉ a) :
    splitChars sep (a ++ l)
      = (a ++ (splitChars sep l).headD []) :: (splitChars sep l).tail := by
  induction a with
  | nil => simpa using splitChars_head_tail sep l
  | cons c a ih =>
    have hc : c ≠ sep := fun hc => h (by simp [hc])
    have ha : sep ∉ a := fun hm => h (List.mem_cons_of_mem _ hm)
    rw [List.cons_append, splitChars_cons_ne sep c (a ++ l) hc, ih ha]
    simp

theorem splitChars_nosep (sep : Char) (l : List Char) (h : sep ∉ l) :
    splitChars sep l = [l] := by
  have h0 := splitChars_append_nosep sep l [] h
  simpa [splitChars] using h0

theorem splitChars_length (sep : Char) (l : List Char) :
    (splitChars sep l).length = l.count sep + 1 := by
  induction l with
  | nil => simp [splitChars]
  | cons c rest ih =>
    by_cases hc : c = sep
    · subst hc
      rw [splitChars_cons_sep]
      simp only [List.length_cons, List.count_cons_self, ih]
    · rw [splitChars_cons_ne sep c rest hc]
      have h2 := congrArg List.length (splitChars_head_tail sep rest)
      simp only [List.length_cons] at h2
      rw [List.count_cons_of_ne (Ne.symm hc)]
      simp only [List.length_cons]
      omega

/-- Splitting the exact shape `lib/<abi>/<fname>.so` (with '/'-free `abi`
and `fname`) yields exactly the three segments the scanner indexes. -/
theorem jsSplit_shape (abi fname : String) (ha : '/' ∉ abi.data)
    (hf : '/' ∉ fname.data) :
    jsSplit '/' ("lib/" ++ abi ++ "/" ++ fname ++ ".so")
      = ["lib", abi, fname ++ ".so"] := by
  have hdata : ("lib/" ++ abi ++ "/" ++ fname ++ ".so").data
      = ['l', 'i', 'b'] ++
        ('/' :: (abi.data ++ ('/' :: (fname.data ++ ['.', 's', 'o'])))) := by
    simp [String.data_append]
  have hnf2 : '/' ∉ fname.data ++ ['.', 's', 'o'] := by
    simp only [List.mem_append]
    rintro (h | h)
    · exact hf h
    · simp at h
  unfold jsSplit
  rw [hdata, splitChars_append_nosep _ _ _ (by decide), splitChars_cons_sep,
    splitChars_append_nosep _ _ _ ha, splitChars_cons_sep,
    splitChars_nosep _ _ hnf2]
  have h1 : String.mk abi.data = abi := rfl
  have h2 : String.mk (fname.data ++ ['.', 's', 'o']) = fname ++ ".so" := by
    apply String.ext
    simp [String.data_append]
  simp [h1, h2]

/-- The boolean accumulation condition of `scanStep`, written as one
guard. -/
def scanGuard (p : String) : Bool :=
  jsStartsWith p "lib/" && jsEndsWith p ".so" &&
    decide ((jsSplit '/' p).length = 3)

/-- The claim-side shape predicate: the path is exactly
`lib/<abi>/<filename>.so` with '/'-free `<abi>` and `<filename>`. -/
def IsNativeLibShape (p : String) : Prop :=
  ∃ abi fname : String, ('/' ∉ abi.data) ∧ ('/' ∉ fname.data) ∧
    p = "lib/" ++ abi ++ "/" ++ fname ++ ".so"

theorem scanStep_eq_guard (m : NLMap) (p : String) :
    scanStep m p =
      if scanGuard p then
        nlmapAccum m ((jsSplit '/' p).getD 2 "") ((jsSplit '/' p).getD 1 "")
          p
      else m := by
  unfold scanStep scanGuard
  by_cases h1 : jsStartsWith p "lib/" && jsEndsWith p ".so"
  · by_cases h2 : (jsSplit '/' p).length = 3
    · simp [h1, h2]
    · simp [h1, h2]
  · simp [h1]

/-- Splitting at the unique occurrence of a character. -/
theorem count_one_split {sep : Char} {l : List Char}
    (h : l.count sep = 1) :
    ∃ a b, l = a ++ sep :: b ∧ sep ∉ a ∧ sep ∉ b := by
  induction l with
  | nil => simp at h
  | cons c rest ih =>
    by_cases hc : c = sep
    · subst hc
      have h0 : rest.count c = 0 := by
        simp [List.count_cons] at h
        omega
      exact ⟨[], rest, by simp, by simp,
        (List.count_eq_zero).mp h0⟩
    · have h1 : rest.count sep = 1 := by
        simpa [List.count_cons, hc] using h
      obtain ⟨a, b, hab, hna, hnb⟩ := ih h1
      refine ⟨c :: a, b, by simp [hab], ?_, hnb⟩
      simp only [List.mem_cons, not_or]
      exact ⟨fun hs => hc hs.symm, hna⟩

theorem shape_of_guard (p : String) (h : scanGuard p = true) :
    IsNativeLibShape p := by
  unfold scanGuard at h
  simp only [Bool.and_eq_true, decide_eq_true_eq] at h
  obtain ⟨⟨h1, h2⟩, h3⟩ := h
  obtain ⟨rest, hrest⟩ := List.isPrefixOf_iff_prefix.mp h1
  have hsuf : ['.', 's', 'o'] <:+ p.data :=
    List.isSuffixOf_iff_suffix.mp h2
  have hcount : p.data.count '/' = 2 := by
    have hl := splitChars_length '/' p.data
    have hlen : (splitChars '/' p.data).length = 3 := by
      simpa [jsSplit, List.length_map] using h3
    omega
  have hrestcount : rest.count '/' = 1 := by
    rw [← hrest] at hcount
    simp only [List.count_append, List.count_cons, List.count_nil] at hcount
    simp at hcount
    omega
  obtain ⟨a, b, hab, hna, hnb⟩ := count_one_split hrestcount
  have hbsuf : '/' :: b <:+ p.data := by
    refine ⟨['l', 'i', 'b', '/'] ++ a, ?_⟩
    rw [← hrest, hab]
    simp
  rcases List.suffix_or_suffix_of_suffix hsuf hbsuf with hss | hss
  · obtain ⟨t, ht⟩ := hss
    cases t with
    | nil => simp at ht
    | cons x t' =>
      have hb : b = t' ++ ['.', 's', 'o'] := by
        have := (List.cons.injEq x (t' ++ ['.', 's', 'o']) '/' b).mp ht
        exact this.2.symm
      have hnt : '/' ∉ t' := fun hm => hnb (by rw [hb]; simp [hm])
      refine ⟨String.mk a, String.mk t', hna, hnt, ?_⟩
      apply String.ext
      have hR : ("lib/" ++ String.mk a ++ "/" ++ String.mk t' ++
          ".so").data
          = ['l', 'i', 'b', '/'] ++ a ++ '/' ::
            (t' ++ ['.', 's', 'o']) := by
        simp [String.data_append]
      rw [hR, ← hrest, hab, hb]
      simp
  · have : ('/' : Char) ∈ ['.', 's', 'o'] :=
      hss.subset (List.mem_cons_self _ _)
    simp at this

theorem guard_of_shape (abi fname : String) (ha : '/' ∉ abi.data)
    (hf : '/' ∉ fname.data) :
    scanGuard ("lib/" ++ abi ++ "/" ++ fname ++ ".so") = true := by
  unfold scanGuard
  simp only [Bool.and_eq_true, decide_eq_true_eq]
  have hdata : ("lib/" ++ abi ++ "/" ++ fname ++ ".so").data
      = ['l', 'i', 'b', '/'] ++ abi.data ++ '/' ::
        (fname.data ++ ['.', 's', 'o']) := by
    simp [String.data_append]
  refine ⟨⟨?_, ?_⟩, ?_⟩
  · apply List.isPrefixOf_iff_prefix.mpr
    show ("lib/" : String).data <+: _
    rw [hdata]
    exact ⟨abi.data ++ '/' :: (fname.data ++ ['.', 's', 'o']), by simp⟩
  · apply List.isSuffixOf_iff_suffix.mpr
    show (".so" : String).data <:+ _
    rw [hdata]
    exact ⟨['l', 'i', 'b', '/'] ++ abi.data ++ '/' :: fname.data, by simp⟩
  · rw [jsSplit_shape abi fname ha hf]
    rfl

/-- Claim C6: the scanner's per-path step accumulates a record if and only
if the path has the exact three-segment shape `lib/<abi>/<filename>.so` —
the boolean guard of the step is equivalent to the shape predicate, a
shaped path accumulates exactly the count/location/architecture update
with the segments the shape names, and a path failing the guard (any other
depth under `lib/`, or any other form) contributes nothing. -/
theorem c6_scan_shape_filter :
    (∀ p : String, scanGuard p = true ↔ IsNativeLibShape p)
    ∧ (∀ abi fname : String, '/' ∉ abi.data → '/' ∉ fname.data →
        ∀ m : NLMap,
          scanStep m ("lib/" ++ abi ++ "/" ++ fname ++ ".so")
            = nlmapAccum m (fname ++ ".so") abi
                ("lib/" ++ abi ++ "/" ++ fname ++ ".so"))
    ∧ (∀ (p : String) (m : NLMap), scanGuard p = false → scanStep m p = m)
    := by
  refine ⟨fun p => ⟨shape_of_guard p, ?_⟩, fun abi fname ha hf m => ?_,
    fun p m hg => ?_⟩
  · rintro ⟨abi, fname, ha, hf, rfl⟩
    exact guard_of_shape abi fname ha hf
  · rw [scanStep_eq_guard, if_pos (guard_of_shape abi fname ha hf),
      jsSplit_shape abi fname ha hf]
    simp [List.getD]
  · rw [scanStep_eq_guard, if_neg (by rw [hg]; exact Bool.false_ne_true)]

/-- Witness for C6 at concrete inputs: the shaped path
`lib/arm64-v8a/libfoo.so` accumulates, while the four-segment path
`lib/a/b/c.so` neither satisfies the shape predicate nor changes the
map. -/
theorem c6_witness :
    scanStep [] "lib/arm64-v8a/libfoo.so"
      = nlmapAccum [] "libfoo.so" "arm64-v8a" "lib/arm64-v8a/libfoo.so"
    ∧ scanStep [] "lib/a/b/c.so" = []
    ∧ ¬ IsNativeLibShape "lib/a/b/c.so" := by
  refine ⟨?_, ?_, ?_⟩
  · exact c6_scan_shape_filter.2.1 "arm64-v8a" "libfoo" (by decide)
      (by decide) []
  · exact c6_scan_shape_filter.2.2 "lib/a/b/c.so" [] (by decide)
  · intro h
    have hg := (c6_scan_shape_filter.1 "lib/a/b/c.so").mpr h
    rw [show scanGuard "lib/a/b/c.so" = false from by decide] at hg
    exact Bool.false_ne_true hg

end ApkAnalysis
